import Mathlib

/-!
Shallow embedding of the command-registration-and-chaining core of the
repository (the `CommandsExtension` of `src/unnamed/part_000`).

Modelling choices, all driven by the source file:

* A transaction ("pending change-set") is identified by a `TrId`; reference
  identity of the JavaScript objects becomes equality of identifiers, and the
  content of every transaction lives in the `World` heap (`trContent`).
* The observable state of the one editing surface (`view`) is the `World`:
  the transaction heap, the identity of the state's pending transaction
  (`view.state.tr`), the log of real commits (`view.dispatch` calls, each
  recording the committed transaction's identity and its content at commit
  time), and the number of `view.focus()` calls.
* A command function follows the spec's Command Function contract: given an
  execution-context snapshot (the pending transaction's identity and content,
  and whether a dispatch/commit operation is supplied) it yields a list of
  effects together with its boolean result.  The effect vocabulary is exactly
  what the contract grants a command: mutating the pending change-set in
  place (`Eff.update`) and invoking the context's dispatch operation on a
  transaction of its choice (`Eff.dispatch`) — possibly a transaction other
  than the pending one, which is what the chain's identity guard detects.
* Effects are interpreted against the dispatch operation the wrapper
  installed: the view's real dispatch, the chain's identity-guard dispatch,
  or no dispatch at all (the `isEnabled` probe), mirroring
  `unchainedFactory` / `chainedFactory`.
* The registry build (`onView`: `forEachExtension` then
  `afterExtensionLoop`), the store keys and the lazy accessors
  (`getCommands` / `getChain`) are translated line by line from the source.
-/

namespace Remirror

/-- Identity of a transaction (pending change-set).  Reference identity of
the mutable JavaScript object becomes equality of identifiers. -/
abbrev TrId := Nat

/-- A single edit accumulated in a change-set. -/
abbrev Edit := Nat

/-- Errors of the core.  `duplicateCommandNames` is
`ErrorConstant.DUPLICATE_COMMAND_NAMES` (the spec's DuplicateNameError, used
both for a repeated name and for a forbidden name);
`commandsCalledInOuterScope` is `ErrorConstant.COMMANDS_CALLED_IN_OUTER_SCOPE`
(the spec's OuterScopeError); `chainTransactionIdentity` is the invariant
failure of the chain's guard dispatch (the spec's
ChainTransactionIdentityError); `dispatchUndefined` models the JavaScript
TypeError raised by calling an absent dispatch; `missingCommand` models
invoking a name that was never registered. -/
inductive Err where
  | duplicateCommandNames
  | commandsCalledInOuterScope
  | chainTransactionIdentity
  | dispatchUndefined
  | missingCommand
  deriving DecidableEq, Repr

/-- An argument passed to a command factory: either plain data or (for
`customTransaction`) an updater callback that mutates a change-set. -/
inductive Arg where
  | nat (n : Nat)
  | updater (f : List Edit → List Edit)

/-- A spread argument list, heterogeneous in the source. -/
abbrev Args := List Arg

/-- The observable state of the editing surface. -/
structure World where
  /-- Content of every transaction in the heap. -/
  trContent : TrId → List Edit
  /-- Identity of `view.state.tr`, the currently pending change-set. -/
  pendingTr : TrId
  /-- Log of real commits: each `view.dispatch(tr)` call records the
  transaction's identity and its content at commit time. -/
  committed : List (TrId × List Edit)
  /-- Number of `view.focus()` calls so far. -/
  focusCount : Nat

/-- The execution-context snapshot a command function receives, per the
spec's Execution Context: the state's pending change-set (identity and
content) and whether a commit operation (`dispatch`) is supplied. -/
structure CommandParameter where
  tr : TrId
  content : List Edit
  hasDispatch : Bool

/-- An effect a command function may perform, per the spec's Command
Function contract: mutate the pending change-set in place, or invoke the
context's dispatch operation on a transaction of its choice. -/
inductive Eff where
  | update (f : List Edit → List Edit)
  | dispatch (t : TrId)

/-- A command function: context snapshot to effects plus boolean result. -/
abbrev CommandFunction := CommandParameter → List Eff × Bool

/-- A command factory (`ExtensionCommandFunction` in the source): spread
arguments to a command function. -/
abbrev ExtensionCommandFunction := Args → CommandFunction

/-- Which dispatch operation the wrapper installed in the context:
the view's real dispatch (`unchainedFactory` with `shouldDispatch`), the
chain's identity-guard dispatch (`chainedFactory`), or none at all
(the `isEnabled` probe). -/
inductive DispatchKind where
  | real
  | guard (pending : TrId)
  | absent

/-- Mutate transaction `t` in place by `f`. -/
def World.updateTr (w : World) (t : TrId) (f : List Edit → List Edit) : World :=
  { w with trContent := fun u => if u = t then f (w.trContent u) else w.trContent u }

/-- The view's real dispatch: commit transaction `t` with its current
content.  Application of the edits to the document is out of scope. -/
def World.realDispatch (w : World) (t : TrId) : World :=
  { w with committed := w.committed ++ [(t, w.trContent t)] }

/-- Interpret one effect against the installed dispatch operation.  `ctxTr`
is the pending transaction the context exposed (`state.tr`).  The guard
dispatch of `chainedFactory` does nothing except check that the dispatched
transaction is the pending one (source line: `invariant(transaction ===
state.tr, ...)`); dispatching with no dispatch present is the JavaScript
TypeError of calling `undefined`. -/
def applyEff (d : DispatchKind) (ctxTr : TrId) (w : World) : Eff → Except Err World
  | .update f => .ok (w.updateTr ctxTr f)
  | .dispatch t =>
    match d with
    | .real => .ok (w.realDispatch t)
    | .guard pending =>
      if t = pending then .ok w else .error .chainTransactionIdentity
    | .absent => .error .dispatchUndefined

/-- Interpret a command's effects in order, stopping at the first error. -/
def applyEffs (d : DispatchKind) (ctxTr : TrId) : World → List Eff → Except Err World
  | w, [] => .ok w
  | w, e :: rest =>
    match applyEff d ctxTr w e with
    | .error err => .error err
    | .ok w' => applyEffs d ctxTr w' rest

/-- The execution-context snapshot read from the view's current state. -/
def World.ctx (w : World) (hasDispatch : Bool) : CommandParameter :=
  { tr := w.pendingTr, content := w.trContent w.pendingTr, hasDispatch }

/-- `CommandsExtension.unchainedFactory`: wraps a command factory into a
directly callable operation.  When `shouldDispatch` (the default), the
view's real dispatch is supplied and `view.focus()` is triggered before the
command runs; with `shouldDispatch = false` (the `isEnabled` probe) no
dispatch is supplied and no focus happens.  Returns the command's boolean
result. -/
def unchainedFactory (shouldDispatch : Bool) (command : ExtensionCommandFunction)
    (args : Args) (w : World) : Except Err (Bool × World) :=
  let w' := if shouldDispatch then { w with focusCount := w.focusCount + 1 } else w
  let p := w'.ctx shouldDispatch
  let r := command args p
  match applyEffs (if shouldDispatch then .real else .absent) p.tr w' r.1 with
  | .error err => .error err
  | .ok w'' => .ok (r.2, w'')

/-- `CommandsExtension.chainedFactory`: wraps a command factory into a chain
step.  Captures the view's current state, installs the identity-guard
dispatch, invokes the command and discards its boolean result.  In the
source the step then returns the shared `chained` object to permit further
chaining; here a chain expression is evaluated by `Chain.step` below, so the
step's value is the world after the step. -/
def chainedFactory (command : ExtensionCommandFunction)
    (spread : Args) (w : World) : Except Err World :=
  let p := w.ctx true
  let r := command spread p
  applyEffs (.guard p.tr) p.tr w r.1

/-- The built-in `customTransaction` command (source lines 128-137): given an
updater callback, when a dispatch operation is present it first applies the
updater to the pending change-set (`transactionUpdater(state.tr)`) and then
dispatches that change-set (`dispatch(state.tr)`); it always returns
`true`. -/
def customTransaction (transactionUpdater : List Edit → List Edit) : CommandFunction :=
  fun p =>
    if p.hasDispatch then
      ([.update transactionUpdater, .dispatch p.tr], true)
    else
      ([], true)

/-- The registered factory form of `customTransaction`.  The TypeScript
signature guarantees the single argument is the updater callback; a call
that violates it is unreachable through the typed surface and is modelled as
a no-op returning `true`. -/
def customTransactionCommand : ExtensionCommandFunction :=
  fun args =>
    match args with
    | [.updater f] => customTransaction f
    | _ => fun _ => ([], true)

/-- `CommandsExtension.createCommands`: the one built-in command set. -/
def commandsExtensionCreateCommands : List (String × ExtensionCommandFunction) :=
  [("customTransaction", customTransactionCommand)]

/-- The names that are forbidden from being used as a command name. -/
def forbiddenNames : List String := ["run", "chain"]

/-- An extension as this core sees it: a name, and optionally a command set
(`createCommands`). -/
structure Extension where
  name : String
  createCommands : Option (List (String × ExtensionCommandFunction))

/-- One entry of the `unchained` record built during the loop: the source
stores the extension's name together with the wrapped command and its
`isEnabled` probe. -/
structure UnchainedEntry where
  name : String
  command : Args → World → Except Err (Bool × World)
  isEnabled : Args → World → Except Err (Bool × World)

/-- The mutable state of one registry build: the seen-name set `names` and
the `unchained` / `chained` records under construction. -/
structure BuildAcc where
  names : List String
  unchained : List (String × UnchainedEntry)
  chained : List (String × (Args → World → Except Err World))

/-- The empty build state (`object()` / `new Set()` at the top of
`onView`). -/
def startAcc : BuildAcc := { names := [], unchained := [], chained := [] }

/-- The body of `forEachExtension` for one extension's command entries.
Modelled from the spec for the helper `throwIfNameNotUnique` (its module is
not under `src/`): it fails with `DUPLICATE_COMMAND_NAMES` when the name was
already seen in this build and otherwise records the name; the subsequent
`invariant(!forbiddenNames.has(name))` of the source then rejects reserved
names with the same error code. -/
def registerExtensionCommands (extensionName : String) :
    BuildAcc → List (String × ExtensionCommandFunction) → Except Err BuildAcc
  | acc, [] => .ok acc
  | acc, (name, command) :: rest =>
    if name ∈ acc.names then .error .duplicateCommandNames
    else if name ∈ forbiddenNames then .error .duplicateCommandNames
    else
      registerExtensionCommands extensionName
        { names := name :: acc.names
          unchained := acc.unchained ++
            [(name,
              { name := extensionName
                command := unchainedFactory true command
                isEnabled := unchainedFactory false command })]
          chained := acc.chained ++ [(name, chainedFactory command)] }
        rest

/-- The per-extension loop of `onView`: skip an extension without
`createCommands`, otherwise register each of its command entries. -/
def forEachExtension : BuildAcc → List Extension → Except Err BuildAcc
  | acc, [] => .ok acc
  | acc, ext :: rest =>
    match ext.createCommands with
    | none => forEachExtension acc rest
    | some cmds =>
      match registerExtensionCommands ext.name acc cmds with
      | .error e => .error e
      | .ok acc' => forEachExtension acc' rest

/-- A published unchained command: the callable with its `isEnabled` probe
attached (`commands[name] = command; commands[name].isEnabled =
isEnabled`). -/
structure CommandShape where
  command : Args → World → Except Err (Bool × World)
  isEnabled : Args → World → Except Err (Bool × World)

/-- The published chain object: one step per registered name plus the
terminal `run`. -/
structure Chain where
  steps : List (String × (Args → World → Except Err World))
  run : World → World

/-- `chained.run = () => view.dispatch(view.state.tr)`: commit, through the
view's real dispatch, the pending change-set read from the view's state at
the moment `run` is called. -/
def chainRun (w : World) : World := w.realDispatch w.pendingTr

/-- The finished registry: the commands mapping and the chain object. -/
structure Registry where
  commands : List (String × CommandShape)
  chain : Chain

/-- The `afterExtensionLoop` of `onView`: copy each unchained entry into the
commands mapping with its `isEnabled` probe attached, and attach `run` to
the chain object. -/
def afterExtensionLoop (acc : BuildAcc) : Registry :=
  { commands := acc.unchained.map fun p =>
      (p.1, { command := p.2.command, isEnabled := p.2.isEnabled })
    chain := { steps := acc.chained, run := chainRun } }

/-- One complete view-ready registry build: the per-extension loop followed
by `afterExtensionLoop`. -/
def buildRegistry (exts : List Extension) : Except Err Registry :=
  match forEachExtension startAcc exts with
  | .error e => .error e
  | .ok acc => .ok (afterExtensionLoop acc)

/-- The ambient store holding the published registry pieces under the fixed
keys `commands` and `chain`; both are unset until a view-ready build
publishes them. -/
structure Store where
  commands : Option (List (String × CommandShape))
  chain : Option Chain

/-- The store before any view-ready build. -/
def initialStore : Store := { commands := none, chain := none }

/-- `setStoreKey('commands', commands); setStoreKey('chain', chained)`:
publish the finished registry, replacing whatever the store held. -/
def setStoreKeys (reg : Registry) (store : Store) : Store :=
  { store with commands := some reg.commands, chain := some reg.chain }

/-- The whole `onView` lifecycle for one view-ready event: build the
registry and publish it; a guard failure aborts the build and nothing is
published (the error carries no store). -/
def onView (exts : List Extension) (store : Store) : Except Err Store :=
  match buildRegistry exts with
  | .error e => .error e
  | .ok reg => .ok (setStoreKeys reg store)

/-- The lazy accessor `getCommands` installed by `onCreate`: read the store
key at call time, failing with `COMMANDS_CALLED_IN_OUTER_SCOPE` when no
build has published it. -/
def getCommands (store : Store) : Except Err (List (String × CommandShape)) :=
  match store.commands with
  | none => .error .commandsCalledInOuterScope
  | some c => .ok c

/-- The lazy accessor `getChain`, same contract as `getCommands`. -/
def getChain (store : Store) : Except Err Chain :=
  match store.chain with
  | none => .error .commandsCalledInOuterScope
  | some c => .ok c

/-- Invoke the chain step registered under `name` (in the source,
`chained[name](...)`, which also returns the shared chain object). -/
def Chain.step (c : Chain) (name : String) (args : Args) (w : World) :
    Except Err World :=
  match c.steps.lookup name with
  | none => .error .missingCommand
  | some f => f args w

/-- All command names contributed by a list of extensions, in registration
order; an extension without a command set contributes nothing. -/
def contributedNames : List Extension → List String
  | [] => []
  | e :: rest => (e.createCommands.getD []).map Prod.fst ++ contributedNames rest

/-- Number of times a command's effect list invokes the context's dispatch
operation. -/
def countDispatches : List Eff → Nat
  | [] => 0
  | .update _ :: rest => countDispatches rest
  | .dispatch _ :: rest => countDispatches rest + 1

/-- A concrete world for concrete evaluations: one empty pending
transaction, nothing committed, no focus yet. -/
def w0 : World :=
  { trContent := fun _ => [], pendingTr := 0, committed := [], focusCount := 0 }

/-- A concrete command used to exercise the `isEnabled` probe: it mutates
the pending change-set and reports whether that change-set was empty. -/
def probeCommand : ExtensionCommandFunction :=
  fun _ p => ([.update fun l => l ++ [5]], p.content.isEmpty)

/-- A command that invokes the supplied dispatch operation twice on the
pending change-set; nothing in the source prevents an extension from
supplying it. -/
def doubleDispatchCommand : ExtensionCommandFunction :=
  fun _ p => ([.dispatch p.tr, .dispatch p.tr], true)

/-- A command that dispatches the transaction `t` of its choice — when `t`
is not the pending one, this models a command that replaced rather than
mutated the change-set. -/
def cloneDispatchCommand (t : TrId) : ExtensionCommandFunction :=
  fun _ _ => ([.dispatch t], true)

/-- A well-behaved chainable command: it mutates the pending change-set in
place by `f` and dispatches that same change-set. -/
def inPlaceStep (f : List Edit → List Edit) : ExtensionCommandFunction :=
  fun _ p => ([.update f, .dispatch p.tr], true)

/-- An extension contributing the single chainable command `a`. -/
def extensionA (f : List Edit → List Edit) : Extension :=
  { name := "extensionA", createCommands := some [("a", inPlaceStep f)] }

/-- An extension contributing the single chainable command `b`. -/
def extensionB (g : List Edit → List Edit) : Extension :=
  { name := "extensionB", createCommands := some [("b", inPlaceStep g)] }

/-- A concrete extension list with pairwise-distinct, unreserved names; the
middle extension contributes no command set. -/
def demoExtensions : List Extension :=
  [ { name := "first", createCommands := some [("foo", fun _ _ => ([], true))] },
    { name := "second", createCommands := none },
    { name := "commands", createCommands := some commandsExtensionCreateCommands } ]

/-- Two extensions contributing the same command name. -/
def dupExtensions : List Extension :=
  [ { name := "first", createCommands := some [("foo", fun _ _ => ([], true))] },
    { name := "second", createCommands := some [("foo", fun _ _ => ([], false))] } ]

/-!  Theorems.  -/

@[simp] theorem updateTr_pendingTr (w : World) (t : TrId) (f : List Edit → List Edit) :
    (w.updateTr t f).pendingTr = w.pendingTr := rfl

@[simp] theorem updateTr_committed (w : World) (t : TrId) (f : List Edit → List Edit) :
    (w.updateTr t f).committed = w.committed := rfl

@[simp] theorem updateTr_focusCount (w : World) (t : TrId) (f : List Edit → List Edit) :
    (w.updateTr t f).focusCount = w.focusCount := rfl

@[simp] theorem updateTr_trContent_self (w : World) (t : TrId) (f : List Edit → List Edit) :
    (w.updateTr t f).trContent t = f (w.trContent t) := by
  simp [World.updateTr]

@[simp] theorem realDispatch_pendingTr (w : World) (t : TrId) :
    (w.realDispatch t).pendingTr = w.pendingTr := rfl

@[simp] theorem realDispatch_committed (w : World) (t : TrId) :
    (w.realDispatch t).committed = w.committed ++ [(t, w.trContent t)] := rfl

@[simp] theorem realDispatch_trContent (w : World) (t : TrId) :
    (w.realDispatch t).trContent = w.trContent := rfl

@[simp] theorem realDispatch_focusCount (w : World) (t : TrId) :
    (w.realDispatch t).focusCount = w.focusCount := rfl

/-- With no dispatch operation installed, interpreting a command's effects
can never commit, never focus and never move the pending pointer. -/
theorem applyEffs_absent_frame (ctxTr : TrId) :
    ∀ (effs : List Eff) (w w' : World),
      applyEffs .absent ctxTr w effs = .ok w' →
      w'.committed = w.committed ∧ w'.focusCount = w.focusCount := by
  intro effs
  induction effs with
  | nil =>
    intro w w' h
    cases h
    exact ⟨rfl, rfl⟩
  | cons e rest ih =>
    intro w w' h
    cases e with
    | update f =>
      have := ih (w.updateTr ctxTr f) w' h
      simpa using this
    | dispatch t =>
      simp [applyEffs, applyEff] at h

/-- With the view's real dispatch installed, interpreting a command's
effects always succeeds, commits once per dispatch invocation and never
focuses. -/
theorem applyEffs_real_spec (ctxTr : TrId) :
    ∀ (effs : List Eff) (w : World),
      ∃ w', applyEffs .real ctxTr w effs = .ok w' ∧
        w'.committed.length = w.committed.length + countDispatches effs ∧
        w'.focusCount = w.focusCount := by
  intro effs
  induction effs with
  | nil =>
    intro w
    exact ⟨w, rfl, rfl, rfl⟩
  | cons e rest ih =>
    intro w
    cases e with
    | update f =>
      obtain ⟨w', h1, h2, h3⟩ := ih (w.updateTr ctxTr f)
      refine ⟨w', ?_, ?_, ?_⟩
      · simpa [applyEffs, applyEff] using h1
      · simpa [countDispatches] using h2
      · simpa using h3
    | dispatch t =>
      obtain ⟨w', h1, h2, h3⟩ := ih (w.realDispatch t)
      refine ⟨w', ?_, ?_, ?_⟩
      · simpa [applyEffs, applyEff] using h1
      · simp only [countDispatches]
        rw [h2]
        simp [List.length_append]
        omega
      · simpa using h3

/-- Unfolding equation for the direct-invocation wrapper. -/
theorem unchainedFactory_true_eq (command : ExtensionCommandFunction)
    (args : Args) (w : World) :
    unchainedFactory true command args w =
      (match applyEffs .real w.pendingTr { w with focusCount := w.focusCount + 1 }
          (command args (w.ctx true)).1 with
        | .error err => .error err
        | .ok w'' => .ok ((command args (w.ctx true)).2, w'')) := rfl

/-- Unfolding equation for the `isEnabled` probe. -/
theorem unchainedFactory_false_eq (command : ExtensionCommandFunction)
    (args : Args) (w : World) :
    unchainedFactory false command args w =
      (match applyEffs .absent w.pendingTr w (command args (w.ctx false)).1 with
        | .error err => .error err
        | .ok w'' => .ok ((command args (w.ctx false)).2, w'')) := rfl

/-- Unfolding equation for a chain step. -/
theorem chainedFactory_eq (command : ExtensionCommandFunction)
    (spread : Args) (w : World) :
    chainedFactory command spread w =
      applyEffs (.guard w.pendingTr) w.pendingTr w (command spread (w.ctx true)).1 := rfl

/-- C3: for every registered command and every argument list, the
`isEnabled` probe (`unchainedFactory` with `shouldDispatch = false`)
performs no commit and no focus side effect, and returns exactly the
boolean the underlying command function returns on an execution context
whose dispatch operation is absent. -/
theorem isEnabled_no_commit_no_focus_same_bool (command : ExtensionCommandFunction)
    (args : Args) (w : World) (b : Bool) (w' : World)
    (h : unchainedFactory false command args w = .ok (b, w')) :
    w'.committed = w.committed ∧ w'.focusCount = w.focusCount ∧
      b = (command args (w.ctx false)).2 := by
  rw [unchainedFactory_false_eq] at h
  cases happ : applyEffs .absent w.pendingTr w (command args (w.ctx false)).1 with
  | error e => rw [happ] at h; cases h
  | ok w'' =>
    obtain ⟨h1, h2⟩ := applyEffs_absent_frame w.pendingTr _ w w'' happ
    rw [happ] at h
    cases h
    exact ⟨h1, h2, rfl⟩

/-- Witness for C3 at a concrete command, argument list and world. -/
theorem isEnabled_no_commit_no_focus_same_bool_witness :
    (w0.updateTr 0 fun l => l ++ [5]).committed = w0.committed ∧
      (w0.updateTr 0 fun l => l ++ [5]).focusCount = w0.focusCount ∧
      true = (probeCommand [] (w0.ctx false)).2 :=
  isEnabled_no_commit_no_focus_same_bool probeCommand [] w0 true
    (w0.updateTr 0 fun l => l ++ [5]) rfl

/-- C4, counterexample to the claim as stated: a registered command may
invoke the supplied commit operation twice, so one direct invocation of its
unchained form causes two commits (the commit log grows from zero to two
entries), not at most one. -/
theorem unchained_two_commits_counterexample :
    (unchainedFactory true doubleDispatchCommand [] w0).map
        (fun r => (r.1, r.2.committed.length, r.2.focusCount)) =
      .ok (true, 2, 1) := rfl

/-- C4 as amended: one direct (unchained) invocation triggers the view's
focus side effect exactly once, returns the wrapped command function's own
boolean result, and causes exactly one commit per invocation of the
supplied commit operation by the command — in particular at most one commit
whenever the wrapped command invokes the commit operation at most once. -/
theorem unchained_focus_once_commit_per_dispatch (command : ExtensionCommandFunction)
    (args : Args) (w : World) :
    ∃ w', unchainedFactory true command args w =
        .ok ((command args (w.ctx true)).2, w') ∧
      w'.focusCount = w.focusCount + 1 ∧
      w'.committed.length =
        w.committed.length + countDispatches (command args (w.ctx true)).1 := by
  obtain ⟨w', h1, h2, h3⟩ :=
    applyEffs_real_spec w.pendingTr (command args (w.ctx true)).1
      { w with focusCount := w.focusCount + 1 }
  refine ⟨w', ?_, ?_, ?_⟩
  · rw [unchainedFactory_true_eq, h1]
  · simpa using h3
  · simpa using h2

/-- C6: the guard dispatch installed by a chain step only checks identity:
a command dispatching a change-set other than the currently pending one
fails the step with the chain-transaction-identity error (before `run()` is
ever reached), while a command dispatching the pending change-set leaves
the world entirely unchanged — in particular the guard performs no real
commit. -/
theorem chain_guard_checks_identity_only (t : TrId) (args : Args) (w : World) :
    chainedFactory (cloneDispatchCommand t) args w =
      if t = w.pendingTr then .ok w else .error .chainTransactionIdentity := by
  rw [chainedFactory_eq]
  by_cases h : t = w.pendingTr <;>
    simp [cloneDispatchCommand, applyEffs, applyEff, h]

/-- C8: the built-in `customTransaction(updater)` always returns `true`,
and when invoked with a commit operation supplied (the direct unchained
invocation) it first applies the updater to the pending change-set and then
commits exactly that updated change-set. -/
theorem customTransaction_true_and_commits_updated (f : List Edit → List Edit)
    (w : World) :
    (∀ p, (customTransaction f p).2 = true) ∧
    ∃ w', unchainedFactory true customTransactionCommand [.updater f] w = .ok (true, w') ∧
      w'.trContent w.pendingTr = f (w.trContent w.pendingTr) ∧
      w'.committed = w.committed ++ [(w.pendingTr, f (w.trContent w.pendingTr))] ∧
      w'.focusCount = w.focusCount + 1 := by
  refine ⟨fun p => ?_, ?_⟩
  · unfold customTransaction
    split <;> rfl
  · refine ⟨(World.updateTr { w with focusCount := w.focusCount + 1 }
        w.pendingTr f).realDispatch w.pendingTr, rfl, ?_, ?_, ?_⟩
    · simp
    · simp
    · simp

/-- C9: when `customTransaction(updater)` runs on an execution context with
no commit operation — exactly what its `isEnabled` probe supplies — the
updater is never applied, the world (in particular the pending change-set)
is left completely untouched, and the command still returns `true`; its
`isEnabled` probe is therefore constantly `true`. -/
theorem customTransaction_isEnabled_constant_true (f : List Edit → List Edit)
    (w : World) :
    unchainedFactory false customTransactionCommand [.updater f] w = .ok (true, w) := rfl

/-- C10: the chain's `run` reads the view's pending change-set at the
moment `run` is called and commits exactly that change-set (with its
content at call time), rather than a change-set captured when the registry
was built: for a registry produced by any build, at every world the commit
log grows by the entry for the world's own current pending transaction. -/
theorem chain_run_reads_pending_at_call_time (exts : List Extension)
    (reg : Registry) (h : buildRegistry exts = .ok reg) (w : World) :
    reg.chain.run w = w.realDispatch w.pendingTr ∧
      (reg.chain.run w).committed =
        w.committed ++ [(w.pendingTr, w.trContent w.pendingTr)] := by
  unfold buildRegistry at h
  cases hfe : forEachExtension startAcc exts with
  | error e => rw [hfe] at h; cases h
  | ok acc =>
    rw [hfe] at h
    cases h
    exact ⟨rfl, rfl⟩

/-- A chain step wrapping a well-behaved in-place mutating command passes
the identity guard and accumulates the mutation into the pending
change-set. -/
theorem chainedFactory_inPlaceStep (f : List Edit → List Edit)
    (args : Args) (w : World) :
    chainedFactory (inPlaceStep f) args w = .ok (w.updateTr w.pendingTr f) := by
  rw [chainedFactory_eq]
  simp [inPlaceStep, applyEffs, applyEff, World.ctx]

/-- C5: in the chain expression `chain.a(argsA).b(argsB).run()` over two
in-place mutating commands, each step succeeds without committing anything
(its boolean result is discarded and, in the source, the shared chain
object is returned so the next step can be invoked on it), and the real
commit operation is invoked exactly once — by `run()`, not once per step —
receiving the single pending change-set that contains the mutations of both
steps. -/
theorem chain_commits_once_with_all_mutations (f g : List Edit → List Edit)
    (argsA argsB : Args) (w : World) :
    ∃ reg w1 w2, buildRegistry [extensionA f, extensionB g] = .ok reg ∧
      reg.chain.step "a" argsA w = .ok w1 ∧ w1.committed = w.committed ∧
      reg.chain.step "b" argsB w1 = .ok w2 ∧ w2.committed = w.committed ∧
      (reg.chain.run w2).committed =
        w.committed ++ [(w.pendingTr, g (f (w.trContent w.pendingTr)))] ∧
      (reg.chain.run w2).focusCount = w.focusCount := by
  refine ⟨_, w.updateTr w.pendingTr f,
    (w.updateTr w.pendingTr f).updateTr w.pendingTr g, rfl, ?_, ?_, ?_, ?_, ?_, ?_⟩
  · exact chainedFactory_inPlaceStep f argsA w
  · simp
  · exact chainedFactory_inPlaceStep g argsB (w.updateTr w.pendingTr f)
  · simp
  · show ((((w.updateTr w.pendingTr f).updateTr w.pendingTr g)).realDispatch
        (((w.updateTr w.pendingTr f).updateTr w.pendingTr g)).pendingTr).committed = _
    simp
  · simp [afterExtensionLoop, chainRun]

/-- The only error the per-command registration loop ever throws is
`DUPLICATE_COMMAND_NAMES`. -/
theorem registerExtensionCommands_error (extensionName : String) :
    ∀ (cmds : List (String × ExtensionCommandFunction)) (acc : BuildAcc) (e : Err),
      registerExtensionCommands extensionName acc cmds = .error e →
      e = .duplicateCommandNames := by
  intro cmds
  induction cmds with
  | nil =>
    intro acc e h
    simp [registerExtensionCommands] at h
  | cons hd tl ih =>
    obtain ⟨name, command⟩ := hd
    intro acc e h
    rw [registerExtensionCommands] at h
    split_ifs at h with h1 h2
    · cases h; rfl
    · cases h; rfl
    · exact ih _ e h

/-- The only error the per-extension loop ever throws is
`DUPLICATE_COMMAND_NAMES`. -/
theorem forEachExtension_error :
    ∀ (exts : List Extension) (acc : BuildAcc) (e : Err),
      forEachExtension acc exts = .error e → e = .duplicateCommandNames := by
  intro exts
  induction exts with
  | nil =>
    intro acc e h
    simp [forEachExtension] at h
  | cons ext rest ih =>
    intro acc e h
    cases hcc : ext.createCommands with
    | none =>
      simp only [forEachExtension, hcc] at h
      exact ih acc e h
    | some cmds =>
      simp only [forEachExtension, hcc] at h
      cases hreg : registerExtensionCommands ext.name acc cmds with
      | error e' =>
        rw [hreg] at h
        cases h
        exact registerExtensionCommands_error ext.name cmds acc _ hreg
      | ok acc' =>
        rw [hreg] at h
        exact ih acc' e h

/-- Description of a successful per-command registration: the command and
chain records are extended, in order, with one entry per contributed name,
and the seen-name set grows by exactly those names. -/
theorem registerExtensionCommands_ok_spec (extensionName : String) :
    ∀ (cmds : List (String × ExtensionCommandFunction)) (acc acc' : BuildAcc),
      registerExtensionCommands extensionName acc cmds = .ok acc' →
      acc'.unchained.map Prod.fst = acc.unchained.map Prod.fst ++ cmds.map Prod.fst ∧
      acc'.chained.map Prod.fst = acc.chained.map Prod.fst ++ cmds.map Prod.fst ∧
      ∀ n, n ∈ acc'.names ↔ n ∈ cmds.map Prod.fst ∨ n ∈ acc.names := by
  intro cmds
  induction cmds with
  | nil =>
    intro acc acc' h
    cases h
    simp
  | cons hd tl ih =>
    obtain ⟨name, command⟩ := hd
    intro acc acc' h
    rw [registerExtensionCommands] at h
    split_ifs at h with h1 h2
    obtain ⟨hu, hc, hn⟩ := ih _ acc' h
    refine ⟨?_, ?_, ?_⟩
    · rw [hu]; simp
    · rw [hc]; simp
    · intro n
      rw [hn n]
      simp only [List.map_cons, List.mem_cons]
      tauto

/-- The per-command registration succeeds exactly when the contributed
names are pairwise distinct, unseen so far in this build and not
reserved. -/
theorem registerExtensionCommands_ok_iff (extensionName : String) :
    ∀ (cmds : List (String × ExtensionCommandFunction)) (acc : BuildAcc),
      (∃ acc', registerExtensionCommands extensionName acc cmds = .ok acc') ↔
        ((cmds.map Prod.fst).Nodup ∧
          ∀ n ∈ cmds.map Prod.fst, n ∉ acc.names ∧ n ∉ forbiddenNames) := by
  intro cmds
  induction cmds with
  | nil =>
    intro acc
    simp [registerExtensionCommands]
  | cons hd tl ih =>
    obtain ⟨name, command⟩ := hd
    intro acc
    simp only [registerExtensionCommands]
    split_ifs with h1 h2
    · constructor
      · rintro ⟨acc', h⟩; cases h
      · rintro ⟨-, hfresh⟩
        exact absurd h1 (hfresh name (by simp)).1
    · constructor
      · rintro ⟨acc', h⟩; cases h
      · rintro ⟨-, hfresh⟩
        exact absurd h2 (hfresh name (by simp)).2
    · rw [ih]
      simp only [List.map_cons, List.nodup_cons, List.mem_cons]
      constructor
      · rintro ⟨hnodup, hfresh⟩
        refine ⟨⟨fun hmem => (hfresh name hmem).1 (Or.inl rfl), hnodup⟩, ?_⟩
        rintro n (rfl | hn)
        · exact ⟨h1, h2⟩
        · have := hfresh n hn
          exact ⟨fun hmem => this.1 (Or.inr hmem), this.2⟩
      · rintro ⟨⟨hnotin, hnodup⟩, hfresh⟩
        refine ⟨hnodup, ?_⟩
        intro n hn
        have := hfresh n (Or.inr hn)
        refine ⟨?_, this.2⟩
        rintro (rfl | hmem)
        · exact hnotin hn
        · exact this.1 hmem

/-- Description of a successful per-extension loop: the published command
names are exactly the previously accumulated ones followed by all
contributed names, in registration order. -/
theorem forEachExtension_ok_spec :
    ∀ (exts : List Extension) (acc acc' : BuildAcc),
      forEachExtension acc exts = .ok acc' →
      acc'.unchained.map Prod.fst =
        acc.unchained.map Prod.fst ++ contributedNames exts := by
  intro exts
  induction exts with
  | nil =>
    intro acc acc' h
    cases h
    simp [contributedNames]
  | cons ext rest ih =>
    intro acc acc' h
    cases hcc : ext.createCommands with
    | none =>
      simp only [forEachExtension, hcc] at h
      rw [ih acc acc' h]
      simp [contributedNames, hcc]
    | some cmds =>
      simp only [forEachExtension, hcc] at h
      cases hreg : registerExtensionCommands ext.name acc cmds with
      | error e => rw [hreg] at h; cases h
      | ok acc1 =>
        rw [hreg] at h
        obtain ⟨hu, -, -⟩ := registerExtensionCommands_ok_spec ext.name cmds acc acc1 hreg
        rw [ih acc1 acc' h, hu]
        simp [contributedNames, hcc]

/-- The whole per-extension loop succeeds exactly when all contributed
names are pairwise distinct, unseen and not reserved. -/
theorem forEachExtension_ok_iff :
    ∀ (exts : List Extension) (acc : BuildAcc),
      (∃ acc', forEachExtension acc exts = .ok acc') ↔
        ((contributedNames exts).Nodup ∧
          ∀ n ∈ contributedNames exts, n ∉ acc.names ∧ n ∉ forbiddenNames) := by
  intro exts
  induction exts with
  | nil =>
    intro acc
    simp [forEachExtension, contributedNames]
  | cons ext rest ih =>
    intro acc
    cases hcc : ext.createCommands with
    | none =>
      have hnames : contributedNames (ext :: rest) = contributedNames rest := by
        simp [contributedNames, hcc]
      rw [hnames]
      simp only [forEachExtension, hcc]
      exact ih acc
    | some cmds =>
      have hsplit : contributedNames (ext :: rest) =
          cmds.map Prod.fst ++ contributedNames rest := by
        simp [contributedNames, hcc]
      rw [hsplit]
      simp only [forEachExtension, hcc]
      cases hreg : registerExtensionCommands ext.name acc cmds with
      | error e =>
        constructor
        · rintro ⟨acc', h⟩; cases h
        · rintro ⟨hnodup, hfresh⟩
          have hok : ∃ acc1, registerExtensionCommands ext.name acc cmds = .ok acc1 := by
            rw [registerExtensionCommands_ok_iff]
            constructor
            · exact (List.nodup_append.mp hnodup).1
            · intro n hn
              exact hfresh n (List.mem_append.mpr (Or.inl hn))
          obtain ⟨acc1, h1⟩ := hok
          rw [hreg] at h1
          cases h1
      | ok acc1 =>
        have hregprops := (registerExtensionCommands_ok_iff ext.name cmds acc).mp ⟨acc1, hreg⟩
        obtain ⟨hcnodup, hcfresh⟩ := hregprops
        obtain ⟨-, -, hnames⟩ := registerExtensionCommands_ok_spec ext.name cmds acc acc1 hreg
        rw [show (∃ acc', (match Except.ok acc1 with
            | Except.error e => (Except.error e : Except Err BuildAcc)
            | Except.ok acc' => forEachExtension acc' rest) = Except.ok acc') ↔
          (∃ acc', forEachExtension acc1 rest = Except.ok acc') from Iff.rfl]
        rw [ih acc1]
        rw [List.nodup_append]
        constructor
        · rintro ⟨hrnodup, hrfresh⟩
          refine ⟨⟨hcnodup, hrnodup, ?_⟩, ?_⟩
          · intro n hn hn'
            exact ((hrfresh n hn').1 ((hnames n).mpr (Or.inl hn)))
          · intro n hn
            rcases List.mem_append.mp hn with hn | hn
            · exact hcfresh n hn
            · have := hrfresh n hn
              refine ⟨fun hmem => this.1 ((hnames n).mpr (Or.inr hmem)), this.2⟩
        · rintro ⟨⟨-, hrnodup, hdisj⟩, hfresh⟩
          refine ⟨hrnodup, ?_⟩
          intro n hn
          have hf := hfresh n (List.mem_append.mpr (Or.inr hn))
          refine ⟨?_, hf.2⟩
          intro hmem
          rcases (hnames n).mp hmem with hmem | hmem
          · exact hdisj hmem hn
          · exact hf.1 hmem

/-- C1: for every list of extensions whose contributed command names are
pairwise distinct and none of which is reserved, the view-ready registry
build succeeds and the published commands mapping has an entry for exactly
the union of all contributed names, in registration order; extensions
without a command set contribute nothing. -/
theorem build_publishes_exactly_contributed_names (exts : List Extension)
    (store : Store)
    (h1 : (contributedNames exts).Nodup)
    (h2 : ∀ n ∈ contributedNames exts, n ∉ forbiddenNames) :
    ∃ s, onView exts store = .ok s ∧
      ∃ cmds, s.commands = some cmds ∧ cmds.map Prod.fst = contributedNames exts := by
  obtain ⟨acc, hacc⟩ := (forEachExtension_ok_iff exts startAcc).mpr
    ⟨h1, fun n hn => ⟨by simp [startAcc], h2 n hn⟩⟩
  have hu := forEachExtension_ok_spec exts startAcc acc hacc
  simp only [startAcc, List.map_nil, List.nil_append] at hu
  refine ⟨setStoreKeys (afterExtensionLoop acc) store, ?_,
    (afterExtensionLoop acc).commands, rfl, ?_⟩
  · simp only [onView, buildRegistry, hacc]
  · simp only [afterExtensionLoop, List.map_map]
    rw [← hu]
    rfl

/-- Witness for C1 at a concrete extension list (one extension without a
command set, two distinct unreserved names). -/
theorem build_publishes_exactly_contributed_names_witness :
    ∃ s, onView demoExtensions initialStore = .ok s ∧
      ∃ cmds, s.commands = some cmds ∧
        cmds.map Prod.fst = contributedNames demoExtensions :=
  build_publishes_exactly_contributed_names demoExtensions initialStore
    (by decide) (by decide)

/-- C2: if any extension registers a command name already registered
earlier in the same build, or a reserved name (`run` / `chain`), the whole
view-ready build fails with the duplicate-name error and nothing is
published: `onView` yields no store at all, so the `commands` and `chain`
store keys are never set with a partial mapping. -/
theorem duplicate_or_reserved_name_aborts_build (exts : List Extension)
    (store : Store)
    (h : ¬ (contributedNames exts).Nodup ∨
      ∃ n ∈ contributedNames exts, n ∈ forbiddenNames) :
    onView exts store = .error .duplicateCommandNames := by
  have hno : ¬ ∃ acc, forEachExtension startAcc exts = .ok acc := by
    rw [forEachExtension_ok_iff]
    rintro ⟨hnodup, hfresh⟩
    rcases h with h | ⟨n, hn, hforb⟩
    · exact h hnodup
    · exact (hfresh n hn).2 hforb
  cases hfe : forEachExtension startAcc exts with
  | ok acc => exact absurd ⟨acc, hfe⟩ hno
  | error e =>
    have he := forEachExtension_error exts startAcc e hfe
    subst he
    simp [onView, buildRegistry, hfe]

/-- Witness for C2 at two concrete extensions contributing the same
name. -/
theorem duplicate_or_reserved_name_aborts_build_witness :
    onView dupExtensions initialStore = .error .duplicateCommandNames :=
  duplicate_or_reserved_name_aborts_build dupExtensions initialStore
    (Or.inl (by decide))

/-- C7: `getCommands` / `getChain` fail with the outer-scope error on the
store that exists before any view-ready build has published the registry;
once a build completes, the store holds exactly the newly published
registry (replacing whatever was there) and both accessors return its
pieces. -/
theorem accessors_fail_before_build_return_latest_after (exts : List Extension)
    (store s : Store) (h : onView exts store = .ok s) :
    getCommands initialStore = .error .commandsCalledInOuterScope ∧
    getChain initialStore = .error .commandsCalledInOuterScope ∧
    ∃ reg, buildRegistry exts = .ok reg ∧ s = setStoreKeys reg store ∧
      getCommands s = .ok reg.commands ∧ getChain s = .ok reg.chain := by
  refine ⟨rfl, rfl, ?_⟩
  unfold onView at h
  cases hb : buildRegistry exts with
  | error e => rw [hb] at h; cases h
  | ok reg =>
    rw [hb] at h
    cases h
    exact ⟨reg, rfl, rfl, rfl, rfl⟩

/-- Witness for C7 at a concrete build over the empty extension list. -/
theorem accessors_fail_before_build_return_latest_after_witness :
    getCommands initialStore = .error .commandsCalledInOuterScope ∧
    getChain initialStore = .error .commandsCalledInOuterScope ∧
    ∃ reg, buildRegistry ([] : List Extension) = .ok reg ∧
      setStoreKeys (afterExtensionLoop startAcc) initialStore = setStoreKeys reg initialStore ∧
      getCommands (setStoreKeys (afterExtensionLoop startAcc) initialStore) = .ok reg.commands ∧
      getChain (setStoreKeys (afterExtensionLoop startAcc) initialStore) = .ok reg.chain :=
  accessors_fail_before_build_return_latest_after [] initialStore
    (setStoreKeys (afterExtensionLoop startAcc) initialStore) rfl

/-- Witness for C10 at the empty build and a concrete world. -/
theorem chain_run_reads_pending_at_call_time_witness :
    (afterExtensionLoop startAcc).chain.run w0 = w0.realDispatch w0.pendingTr ∧
      ((afterExtensionLoop startAcc).chain.run w0).committed =
        w0.committed ++ [(w0.pendingTr, w0.trContent w0.pendingTr)] :=
  chain_run_reads_pending_at_call_time [] (afterExtensionLoop startAcc) rfl w0

end Remirror
